import Mathlib

/-!
Verification of the PPO trainer core (src/src/rl_interface/scripts/ppo.py)
against its natural-language specification.

The shallow embedding below follows the Python source:
  * class Buffer        -> structure Buffer (store / sample_all / empty_buffer / size)
  * Actor               -> structure Actor (compute_log_prob / get_action_noise)
  * RL_algo._compute_reward -> compute_reward (GAE backward loop + standardization)
  * RL_algo.learn_if_buffer_is_full -> learn_if_buffer_is_full
Float32 tensor arithmetic is modelled over the reals; torch.empty regions are
modelled as arbitrary initial contents (parameters R0, A0, and arbitrary
initial field maps of a Buffer).  A torch index assignment out of bounds
raises IndexError before mutating anything, so Buffer.store returns an
Option: none is the error branch, taken before any field or the cursor is
touched.
-/

/-- One transition tuple as passed to Buffer.store: state, action, reward,
mask, noise.  The scalar representation is a type parameter because the
buffer never computes with the stored values. -/
structure Transition (A : Type) where
  state : List A
  action : List A
  reward : A
  mask : A
  noise : A

/-- Embedding of class Buffer: five preallocated storage regions (total maps
from slot index to contents, slots at or beyond mem_cntr hold junk) plus the
write cursor mem_cntr and the fixed capacity. -/
structure Buffer (A : Type) where
  capacity : ℕ
  mem_cntr : ℕ
  states : ℕ → List A
  actions : ℕ → List A
  rewards : ℕ → A
  masks : ℕ → A
  noises : ℕ → A

namespace Buffer

variable {A : Type}

/-- Embedding of Buffer.store: writes every field at index mem_cntr and
increments the cursor.  When mem_cntr is not a valid slot the very first
tensor assignment raises IndexError, so the error branch (none) is taken
with no field written and the cursor unchanged. -/
def store (b : Buffer A) (t : Transition A) : Option (Buffer A) :=
  if b.mem_cntr < b.capacity then
    some { b with
      states := Function.update b.states b.mem_cntr t.state
      actions := Function.update b.actions b.mem_cntr t.action
      rewards := Function.update b.rewards b.mem_cntr t.reward
      masks := Function.update b.masks b.mem_cntr t.mask
      noises := Function.update b.noises b.mem_cntr t.noise
      mem_cntr := b.mem_cntr + 1 }
  else
    none

/-- Embedding of Buffer.sample_all: the five slices states[:mem_cntr], ...,
noises[:mem_cntr], in insertion order. -/
def sample_all (b : Buffer A) :
    List (List A) × List (List A) × List A × List A × List A :=
  ((List.range b.mem_cntr).map b.states,
   (List.range b.mem_cntr).map b.actions,
   (List.range b.mem_cntr).map b.rewards,
   (List.range b.mem_cntr).map b.masks,
   (List.range b.mem_cntr).map b.noises)

/-- Embedding of Buffer.empty_buffer: resets the cursor, leaves storage. -/
def empty_buffer (b : Buffer A) : Buffer A :=
  { b with mem_cntr := 0 }

/-- Embedding of Buffer.__len__. -/
def size (b : Buffer A) : ℕ :=
  b.mem_cntr

/-- A sequence of store calls, failing as soon as one store fails. -/
def storeList (b : Buffer A) (ts : List (Transition A)) : Option (Buffer A) :=
  ts.foldlM store b

end Buffer

/-- Helper: a successful run of store calls appends the transitions at
consecutive slots starting at the current cursor, leaves every earlier slot
of every field unchanged, and advances the cursor by the number of calls. -/
theorem Buffer.storeList_ok {A : Type} :
    ∀ (ts : List (Transition A)) (b : Buffer A),
      b.mem_cntr + ts.length ≤ b.capacity →
      ∃ b2, b.storeList ts = some b2 ∧
        b2.capacity = b.capacity ∧
        b2.mem_cntr = b.mem_cntr + ts.length ∧
        (∀ k, k < b.mem_cntr →
          b2.states k = b.states k ∧ b2.actions k = b.actions k ∧
          b2.rewards k = b.rewards k ∧ b2.masks k = b.masks k ∧
          b2.noises k = b.noises k) ∧
        (∀ j (hj : j < ts.length),
          b2.states (b.mem_cntr + j) = (ts.get ⟨j, hj⟩).state ∧
          b2.actions (b.mem_cntr + j) = (ts.get ⟨j, hj⟩).action ∧
          b2.rewards (b.mem_cntr + j) = (ts.get ⟨j, hj⟩).reward ∧
          b2.masks (b.mem_cntr + j) = (ts.get ⟨j, hj⟩).mask ∧
          b2.noises (b.mem_cntr + j) = (ts.get ⟨j, hj⟩).noise) := by
  intro ts
  induction ts with
  | nil =>
    intro b _
    exact ⟨b, rfl, rfl, by simp, fun k _ => ⟨rfl, rfl, rfl, rfl, rfl⟩,
      fun j hj => absurd hj (Nat.not_lt_zero j)⟩
  | cons t ts ih =>
    intro b hcap
    have hlt : b.mem_cntr < b.capacity := by
      simp only [List.length_cons] at hcap; omega
    set b1 : Buffer A :=
      { b with
        states := Function.update b.states b.mem_cntr t.state
        actions := Function.update b.actions b.mem_cntr t.action
        rewards := Function.update b.rewards b.mem_cntr t.reward
        masks := Function.update b.masks b.mem_cntr t.mask
        noises := Function.update b.noises b.mem_cntr t.noise
        mem_cntr := b.mem_cntr + 1 } with hb1
    have hstep : b.store t = some b1 := by
      simp [Buffer.store, hlt, hb1]
    have hcap1 : b1.mem_cntr + ts.length ≤ b1.capacity := by
      simp only [hb1, List.length_cons] at hcap ⊢; omega
    obtain ⟨b2, hrun, hc, hm, hframe, hcontent⟩ := ih b1 hcap1
    refine ⟨b2, ?_, ?_, ?_, ?_, ?_⟩
    · simp only [Buffer.storeList, List.foldlM_cons, hstep]
      exact hrun
    · simpa [hb1] using hc
    · simp only [hb1] at hm; simp [hm, List.length_cons]; omega
    · intro k hk
      have hk1 : k < b1.mem_cntr := by simp only [hb1]; omega
      have hne : k ≠ b.mem_cntr := by omega
      have := hframe k hk1
      simpa [hb1, Function.update_noteq hne] using this
    · intro j hj
      match j with
      | 0 =>
        have hcur : b.mem_cntr < b1.mem_cntr := by simp [hb1]
        have := hframe b.mem_cntr hcur
        simpa [hb1, Function.update_same] using this
      | j + 1 =>
        have hj1 : j < ts.length := by
          simp only [List.length_cons] at hj; omega
        have := hcontent j hj1
        have harith : b.mem_cntr + (j + 1) = b1.mem_cntr + j := by
          simp [hb1]; omega
        simpa [harith, List.get_cons_succ] using this

/-- C5: starting from an empty buffer, any sequence of store calls that fits
inside the capacity succeeds, and sample_all then returns, at each position
i and for each of the five fields, exactly the tuple given to the i-th store
call. -/
theorem store_sample_all_roundtrip {A : Type} (b : Buffer A)
    (ts : List (Transition A)) (h0 : b.mem_cntr = 0)
    (hcap : ts.length ≤ b.capacity) :
    ∃ b2, b.storeList ts = some b2 ∧ b2.size = ts.length ∧
      ∀ i (hi : i < ts.length),
        b2.sample_all.1.get? i = some (ts.get ⟨i, hi⟩).state ∧
        b2.sample_all.2.1.get? i = some (ts.get ⟨i, hi⟩).action ∧
        b2.sample_all.2.2.1.get? i = some (ts.get ⟨i, hi⟩).reward ∧
        b2.sample_all.2.2.2.1.get? i = some (ts.get ⟨i, hi⟩).mask ∧
        b2.sample_all.2.2.2.2.get? i = some (ts.get ⟨i, hi⟩).noise := by
  obtain ⟨b2, hrun, _, hm, _, hcontent⟩ :=
    Buffer.storeList_ok ts b (by omega)
  have hm2 : b2.mem_cntr = ts.length := by omega
  refine ⟨b2, hrun, hm2, ?_⟩
  intro i hi
  have hi2 : i < b2.mem_cntr := by omega
  have hfield := hcontent i (by omega)
  simp only [h0, Nat.zero_add] at hfield
  obtain ⟨hs, ha, hr, hk, hn⟩ := hfield
  have hrange : (List.range b2.mem_cntr)[i]? = some i :=
    List.getElem?_range hi2
  constructor
  · simp [Buffer.sample_all, hrange, hs]
  constructor
  · simp [Buffer.sample_all, hrange, ha]
  constructor
  · simp [Buffer.sample_all, hrange, hr]
  constructor
  · simp [Buffer.sample_all, hrange, hk]
  · simp [Buffer.sample_all, hrange, hn]

/-- C5 witness: two concrete transitions stored into an empty two-slot
buffer come back unchanged from sample_all. -/
theorem store_sample_all_roundtrip_witness :
    (let b : Buffer ℕ :=
      ⟨2, 0, fun _ => [9], fun _ => [9], fun _ => 9, fun _ => 9, fun _ => 9⟩
     let ts : List (Transition ℕ) := [⟨[1], [2], 3, 4, 5⟩, ⟨[6], [7], 8, 0, 1⟩]
     b.mem_cntr = 0 ∧ ts.length ≤ b.capacity ∧
      ∃ b2, b.storeList ts = some b2 ∧ b2.size = ts.length ∧
        ∀ i (hi : i < ts.length),
          b2.sample_all.1.get? i = some (ts.get ⟨i, hi⟩).state ∧
          b2.sample_all.2.1.get? i = some (ts.get ⟨i, hi⟩).action ∧
          b2.sample_all.2.2.1.get? i = some (ts.get ⟨i, hi⟩).reward ∧
          b2.sample_all.2.2.2.1.get? i = some (ts.get ⟨i, hi⟩).mask ∧
          b2.sample_all.2.2.2.2.get? i = some (ts.get ⟨i, hi⟩).noise) :=
  ⟨rfl, by decide, store_sample_all_roundtrip _ _ rfl (by decide)⟩

/-- C6: store on a full buffer (size = capacity) takes the error branch:
it returns none, before any field or the cursor has been modified (the
functional embedding returns no updated buffer at all, so the original
buffer value, its cursor and all previously stored entries are untouched). -/
theorem store_full_fails {A : Type} (b : Buffer A) (t : Transition A)
    (hfull : b.size = b.capacity) : b.store t = none := by
  have : ¬ b.mem_cntr < b.capacity := by
    simp only [Buffer.size] at hfull; omega
  simp [Buffer.store, this]

/-- C6 witness: a concrete full buffer of capacity one rejects a store. -/
theorem store_full_fails_witness :
    (let b : Buffer ℕ :=
      ⟨1, 1, fun _ => [1], fun _ => [2], fun _ => 3, fun _ => 4, fun _ => 5⟩
     b.size = b.capacity ∧ b.store ⟨[7], [7], 7, 7, 7⟩ = none) :=
  ⟨rfl, store_full_fails _ _ rfl⟩

/-- C9: empty_buffer resets the size to 0, and a subsequent store (possible
whenever the capacity is positive) writes its tuple into slot 0, after which
sample_all returns exactly that one tuple and nothing of the stale
pre-clear contents. -/
theorem empty_buffer_store_slot_zero {A : Type} (b : Buffer A) (t : Transition A)
    (hcap : 0 < b.capacity) :
    b.empty_buffer.size = 0 ∧
    ∃ b2, b.empty_buffer.store t = some b2 ∧
      b2.sample_all = ([t.state], [t.action], [t.reward], [t.mask], [t.noise]) := by
  refine ⟨rfl, ?_⟩
  have hlt : (b.empty_buffer).mem_cntr < (b.empty_buffer).capacity := by
    simpa [Buffer.empty_buffer] using hcap
  refine ⟨⟨b.capacity, 1,
      Function.update b.empty_buffer.states 0 t.state,
      Function.update b.empty_buffer.actions 0 t.action,
      Function.update b.empty_buffer.rewards 0 t.reward,
      Function.update b.empty_buffer.masks 0 t.mask,
      Function.update b.empty_buffer.noises 0 t.noise⟩, ?_, ?_⟩
  · simp [Buffer.store, Buffer.empty_buffer, Nat.pos_iff_ne_zero.mp hcap]
  · simp [Buffer.sample_all, List.range_succ, Function.update_same]

/-- C9 witness: clearing a concrete nonempty buffer and storing one tuple
yields a sample_all holding exactly that tuple. -/
theorem empty_buffer_store_slot_zero_witness :
    (let b : Buffer ℕ :=
      ⟨3, 2, fun _ => [8], fun _ => [8], fun _ => 8, fun _ => 8, fun _ => 8⟩
     let t : Transition ℕ := ⟨[1], [2], 3, 4, 5⟩
     0 < b.capacity ∧
      (b.empty_buffer.size = 0 ∧
       ∃ b2, b.empty_buffer.store t = some b2 ∧
         b2.sample_all = ([t.state], [t.action], [t.reward], [t.mask], [t.noise]))) :=
  ⟨by decide, empty_buffer_store_slot_zero _ _ (by decide)⟩

/-- C10: a store into a non-full buffer succeeds, grows the size by exactly
one, and modifies no slot below the old cursor in any of the five fields. -/
theorem store_frame {A : Type} (b : Buffer A) (t : Transition A)
    (h : b.size < b.capacity) :
    ∃ b2, b.store t = some b2 ∧ b2.size = b.size + 1 ∧
      ∀ k, k < b.size →
        b2.states k = b.states k ∧ b2.actions k = b.actions k ∧
        b2.rewards k = b.rewards k ∧ b2.masks k = b.masks k ∧
        b2.noises k = b.noises k := by
  have hlt : b.mem_cntr < b.capacity := h
  refine ⟨⟨b.capacity, b.mem_cntr + 1,
      Function.update b.states b.mem_cntr t.state,
      Function.update b.actions b.mem_cntr t.action,
      Function.update b.rewards b.mem_cntr t.reward,
      Function.update b.masks b.mem_cntr t.mask,
      Function.update b.noises b.mem_cntr t.noise⟩,
    by simp [Buffer.store, hlt], rfl, ?_⟩
  intro k hk
  have hne : k ≠ b.mem_cntr := by
    simp only [Buffer.size] at hk; omega
  simp [Function.update_noteq hne]

/-- C10 witness: storing into a half-filled concrete buffer leaves slot 0
unchanged and bumps the size from 1 to 2. -/
theorem store_frame_witness :
    (let b : Buffer ℕ :=
      ⟨2, 1, fun _ => [1], fun _ => [2], fun _ => 3, fun _ => 4, fun _ => 5⟩
     b.size < b.capacity ∧
      ∃ b2, b.store ⟨[6], [7], 8, 9, 0⟩ = some b2 ∧ b2.size = b.size + 1 ∧
        ∀ k, k < b.size →
          b2.states k = b.states k ∧ b2.actions k = b.actions k ∧
          b2.rewards k = b.rewards k ∧ b2.masks k = b.masks k ∧
          b2.noises k = b.noises k) :=
  ⟨by decide, store_frame _ _ (by decide)⟩

/-! ## GAE: RL_algo._compute_reward -/

/-- Hyperparameter lambda_gae_adv = 0.98 from the source header. -/
noncomputable def lambda_gae_adv : ℝ := 0.98

/-- Hyperparameter: the additive 1e-5 guard of the standardization step. -/
noncomputable def std_eps : ℝ := 1e-5

/-- One iteration of the backward loop in _compute_reward: the state is
(returns array, advantages array, pre_return, pre_advantage) and i is the
loop index. -/
noncomputable def gae_step (rewards masks value : ℕ → ℝ)
    (st : (ℕ → ℝ) × (ℕ → ℝ) × ℝ × ℝ) (i : ℕ) :
    (ℕ → ℝ) × (ℕ → ℝ) × ℝ × ℝ :=
  let ri := rewards i + masks i * st.2.2.1
  let ai := rewards i + masks i * st.2.2.2 - value i
  (Function.update st.1 i ri, Function.update st.2.1 i ai,
   ri, value i + ai * lambda_gae_adv)

/-- The loop for i in range(buffer_len - 1, -1, -1): gae_loop k runs the
body at indices k-1, k-2, ..., 0. -/
noncomputable def gae_loop (rewards masks value : ℕ → ℝ) :
    ℕ → ((ℕ → ℝ) × (ℕ → ℝ) × ℝ × ℝ) → ((ℕ → ℝ) × (ℕ → ℝ) × ℝ × ℝ)
  | 0, st => st
  | k + 1, st => gae_loop rewards masks value k (gae_step rewards masks value st k)

/-- Mean of the first n entries of an array (torch mean over a length-n
tensor). -/
noncomputable def meanN (n : ℕ) (a : ℕ → ℝ) : ℝ :=
  (∑ j ∈ Finset.range n, a j) / n

/-- Standard deviation of the first n entries, with the Bessel correction
used by torch.std (denominator n - 1). -/
noncomputable def stdN (n : ℕ) (a : ℕ → ℝ) : ℝ :=
  Real.sqrt ((∑ j ∈ Finset.range n, (a j - meanN n a) ^ 2) / ((n - 1 : ℕ) : ℝ))

/-- The standard-score line of _compute_reward:
advantages = (advantages - advantages.mean()) / (advantages.std() + 1e-5). -/
noncomputable def standardize (n : ℕ) (a : ℕ → ℝ) : ℕ → ℝ :=
  fun i => (a i - meanN n a) / (stdN n a + std_eps)

/-- Embedding of RL_algo._compute_reward: run the backward GAE loop from
(pre_return, pre_advantage) = (0, 0) over the torch.empty arrays R0 and A0
(arbitrary junk contents), then standardize the advantages. -/
noncomputable def compute_reward (buffer_len : ℕ)
    (rewards masks value R0 A0 : ℕ → ℝ) : (ℕ → ℝ) × (ℕ → ℝ) :=
  let st := gae_loop rewards masks value buffer_len (R0, A0, 0, 0)
  (st.1, standardize buffer_len st.2.1)

/-- Spec-side recursion (4.4 of the spec): the (pre_return, pre_advantage)
pair after processing the k top indices n-1, ..., n-k of a length-n batch. -/
noncomputable def specPre (r m v : ℕ → ℝ) (n : ℕ) : ℕ → ℝ × ℝ
  | 0 => (0, 0)
  | k + 1 =>
    let p := specPre r m v n k
    let i := n - 1 - k
    (r i + m i * p.1, v i + (r i + m i * p.2 - v i) * lambda_gae_adv)

/-- Spec-side value of returns[i]: rewards[i] + masks[i] * pre_return, with
pre_return taken after the indices above i have been processed. -/
noncomputable def specReturns (r m v : ℕ → ℝ) (n i : ℕ) : ℝ :=
  r i + m i * (specPre r m v n (n - 1 - i)).1

/-- Spec-side value of the raw (pre-standardization) advantages[i]. -/
noncomputable def specAdv (r m v : ℕ → ℝ) (n i : ℕ) : ℝ :=
  r i + m i * (specPre r m v n (n - 1 - i)).2 - v i

/-- Helper: the backward loop writes exactly the spec-side recursion values
into indices below k and leaves the rest of the arrays untouched. -/
theorem gae_loop_spec (r m v : ℕ → ℝ) (n : ℕ) :
    ∀ (k : ℕ) (R0 A0 : ℕ → ℝ), k ≤ n →
      gae_loop r m v k
          (R0, A0, (specPre r m v n (n - k)).1, (specPre r m v n (n - k)).2) =
        (fun i => if i < k then specReturns r m v n i else R0 i,
         fun i => if i < k then specAdv r m v n i else A0 i,
         (specPre r m v n n).1, (specPre r m v n n).2) := by
  intro k
  induction k with
  | zero =>
    intro R0 A0 _
    simp only [Nat.sub_zero, gae_loop]
    refine Prod.ext ?_ (Prod.ext ?_ rfl)
    · funext i; simp
    · funext i; simp
  | succ k ih =>
    intro R0 A0 hk
    have hk2 : k ≤ n := Nat.le_of_succ_le hk
    have hsub : n - k = (n - (k + 1)) + 1 := by omega
    have hidx : n - 1 - (n - (k + 1)) = k := by omega
    have hidx2 : n - 1 - k = n - (k + 1) := by omega
    have h1 : (specPre r m v n (n - k)).1
        = r k + m k * (specPre r m v n (n - (k + 1))).1 := by
      rw [hsub]; simp only [specPre]; rw [hidx]
    have h2 : (specPre r m v n (n - k)).2
        = v k + (r k + m k * (specPre r m v n (n - (k + 1))).2 - v k)
            * lambda_gae_adv := by
      rw [hsub]; simp only [specPre]; rw [hidx]
    have hret : specReturns r m v n k
        = r k + m k * (specPre r m v n (n - (k + 1))).1 := by
      simp only [specReturns, hidx2]
    have hadv : specAdv r m v n k
        = r k + m k * (specPre r m v n (n - (k + 1))).2 - v k := by
      simp only [specAdv, hidx2]
    have hstep :
        gae_step r m v
            (R0, A0, (specPre r m v n (n - (k + 1))).1,
             (specPre r m v n (n - (k + 1))).2) k
          = (Function.update R0 k (specReturns r m v n k),
             Function.update A0 k (specAdv r m v n k),
             (specPre r m v n (n - k)).1, (specPre r m v n (n - k)).2) := by
      rw [hret, hadv, h1, h2]
      simp [gae_step]
    simp only [gae_loop]
    rw [hstep, ih _ _ hk2]
    refine Prod.ext ?_ (Prod.ext ?_ rfl)
    · funext i
      by_cases hik : i < k
      · simp [hik, Nat.lt_succ_of_lt hik]
      · by_cases hik2 : i = k
        · subst hik2
          simp [Function.update_same, Nat.lt_succ_self, hik]
        · have hik3 : ¬ i < k + 1 := by omega
          simp [hik, hik3, Function.update_noteq hik2]
    · funext i
      by_cases hik : i < k
      · simp [hik, Nat.lt_succ_of_lt hik]
      · by_cases hik2 : i = k
        · subst hik2
          simp [Function.update_same, Nat.lt_succ_self, hik]
        · have hik3 : ¬ i < k + 1 := by omega
          simp [hik, hik3, Function.update_noteq hik2]

/-- Helper: the full backward pass starting from (0, 0). -/
theorem gae_loop_full (r m v R0 A0 : ℕ → ℝ) (n : ℕ) :
    gae_loop r m v n (R0, A0, 0, 0) =
      (fun i => if i < n then specReturns r m v n i else R0 i,
       fun i => if i < n then specAdv r m v n i else A0 i,
       (specPre r m v n n).1, (specPre r m v n n).2) := by
  have h := gae_loop_spec r m v n n R0 A0 le_rfl
  rw [Nat.sub_self] at h
  simpa [specPre] using h

/-- C2: for every batch of length n at least 1, _compute_reward returns
exactly the backward-recursion returns of the spec pseudocode, and its
advantages are the recursion advantages passed through the subsequent
standardization step over the full batch. -/
theorem compute_reward_matches_spec (n : ℕ) (r m v R0 A0 : ℕ → ℝ)
    (_hn : 1 ≤ n) (i : ℕ) (hi : i < n) :
    (compute_reward n r m v R0 A0).1 i = specReturns r m v n i ∧
    (compute_reward n r m v R0 A0).2 i
      = standardize n (specAdv r m v n) i := by
  have h := gae_loop_full r m v R0 A0 n
  have hmean : meanN n (fun j => if j < n then specAdv r m v n j else A0 j)
      = meanN n (specAdv r m v n) := by
    unfold meanN
    congr 1
    exact Finset.sum_congr rfl fun j hj => by
      simp [Finset.mem_range.mp hj]
  have hstd : stdN n (fun j => if j < n then specAdv r m v n j else A0 j)
      = stdN n (specAdv r m v n) := by
    unfold stdN
    rw [hmean]
    congr 2
    exact Finset.sum_congr rfl fun j hj => by
      simp [Finset.mem_range.mp hj]
  constructor
  · simp only [compute_reward, h]
    simp [hi]
  · simp only [compute_reward, h]
    simp [standardize, hmean, hstd, hi]

/-- C2 witness: the length-one batch with reward 1 instantiates the
equivalence. -/
theorem compute_reward_matches_spec_witness :
    1 ≤ 1 ∧ 0 < 1 ∧
      ((compute_reward 1 (fun _ => 1) (fun _ => 0) (fun _ => 0)
          (fun _ => 0) (fun _ => 0)).1 0
        = specReturns (fun _ => 1) (fun _ => 0) (fun _ => 0) 1 0 ∧
       (compute_reward 1 (fun _ => 1) (fun _ => 0) (fun _ => 0)
          (fun _ => 0) (fun _ => 0)).2 0
        = standardize 1 (specAdv (fun _ => 1) (fun _ => 0) (fun _ => 0) 1) 0) :=
  ⟨le_rfl, Nat.one_pos,
    compute_reward_matches_spec 1 _ _ _ _ _ le_rfl 0 Nat.one_pos⟩

/-- C3 counterexample: on the length-one terminal batch with reward 1 and
value 0, the pair returned by _compute_reward does not satisfy the claimed
advantages[0] = rewards[0] - values[0]: the returned advantages have
already been standardized, and for a single-element batch the centred
numerator is 0 (in floating point the Bessel std of one sample is even
NaN), so the returned advantage is 0, not 1. -/
theorem gae_length_one_counterexample :
    ¬ ((compute_reward 1 (fun _ => (1 : ℝ)) (fun _ => 0) (fun _ => 0)
          (fun _ => 5) (fun _ => 5)).1 0 = 1 ∧
       (compute_reward 1 (fun _ => (1 : ℝ)) (fun _ => 0) (fun _ => 0)
          (fun _ => 5) (fun _ => 5)).2 0 = 1 - 0) := by
  intro h
  have h2 := h.2
  have hloop : gae_loop (fun _ => (1 : ℝ)) (fun _ => 0) (fun _ => 0) 1
      ((fun _ => 5), (fun _ => 5), 0, 0)
      = gae_step (fun _ => (1 : ℝ)) (fun _ => 0) (fun _ => 0)
          ((fun _ => 5), (fun _ => 5), 0, 0) 0 := rfl
  have hval : (compute_reward 1 (fun _ => (1 : ℝ)) (fun _ => 0) (fun _ => 0)
      (fun _ => 5) (fun _ => 5)).2 0 = 0 := by
    simp only [compute_reward, hloop, gae_step, standardize, meanN]
    norm_num [Finset.sum_range_one, Function.update_same]
  rw [hval] at h2
  norm_num at h2

/-- C3 amended: for a length-one batch the returns entry equals the reward
(for any mask, in particular the terminal mask 0), and the raw advantage
produced by the backward recursion equals rewards[0] - values[0]; the pair
returned by _compute_reward carries instead the standardized advantage,
which for a one-element batch is the degenerate value 0 (NaN in IEEE
floating point, 0 under the total-division semantics of the reals used
here). -/
theorem gae_length_one_amended (r m v R0 A0 : ℕ → ℝ) (_hm : m 0 = 0) :
    (compute_reward 1 r m v R0 A0).1 0 = r 0 ∧
    (gae_loop r m v 1 (R0, A0, 0, 0)).2.1 0 = r 0 - v 0 ∧
    (compute_reward 1 r m v R0 A0).2 0 = 0 := by
  have hloop : gae_loop r m v 1 (R0, A0, 0, 0)
      = gae_step r m v (R0, A0, 0, 0) 0 := rfl
  refine ⟨?_, ?_, ?_⟩
  · simp only [compute_reward, hloop]
    simp [gae_step, Function.update_same]
  · rw [hloop]
    simp [gae_step, Function.update_same]
  · simp only [compute_reward, hloop, gae_step, standardize, meanN]
    norm_num [Finset.sum_range_one, Function.update_same]

/-- C3 amended witness: concrete terminal one-step batch. -/
theorem gae_length_one_amended_witness :
    (fun _ : ℕ => (0 : ℝ)) 0 = 0 ∧
      ((compute_reward 1 (fun _ => (3 : ℝ)) (fun _ => 0) (fun _ => 2)
          (fun _ => 7) (fun _ => 7)).1 0 = (fun _ : ℕ => (3 : ℝ)) 0 ∧
       (gae_loop (fun _ => (3 : ℝ)) (fun _ => 0) (fun _ => 2) 1
          ((fun _ => 7), (fun _ => 7), 0, 0)).2.1 0
         = (fun _ : ℕ => (3 : ℝ)) 0 - (fun _ : ℕ => (2 : ℝ)) 0 ∧
       (compute_reward 1 (fun _ => (3 : ℝ)) (fun _ => 0) (fun _ => 2)
          (fun _ => 7) (fun _ => 7)).2 0 = 0) :=
  ⟨rfl, gae_length_one_amended _ _ _ _ _ rfl⟩

/-! ## Actor: Gaussian policy log-probabilities -/

/-- The constant self.sqrt_2pi_log = log(sqrt(2 pi)). -/
noncomputable def sqrt_2pi_log : ℝ := Real.log (Real.sqrt (2 * Real.pi))

/-- Embedding of class Actor for the log-probability claims: the feed-forward
backbone self.net is an abstract function from states to mean vectors, and
a_std_log is the free log-std parameter vector, one entry per action
dimension. -/
structure Actor (S : Type) (action_dim : ℕ) where
  net : S → Fin action_dim → ℝ
  a_std_log : Fin action_dim → ℝ

namespace Actor

variable {S : Type} {action_dim : ℕ}

/-- Embedding of Actor.get_action_noise: a_avg = net(state),
a_std = exp(a_std_log), action = a_avg + noise * a_std, returning the action
together with the noise.  The standard-normal draw of the noise is a
parameter of the embedding. -/
noncomputable def get_action_noise (A : Actor S action_dim) (state : S)
    (noise : Fin action_dim → ℝ) :
    (Fin action_dim → ℝ) × (Fin action_dim → ℝ) :=
  (fun i => A.net state i + noise i * Real.exp (A.a_std_log i), noise)

/-- Embedding of Actor.compute_log_prob: recompute a_avg and a_std, form
delta = ((a_avg - action) / a_std)^2 * 0.5, negate a_std_log + sqrt_2pi_log
+ delta, and sum over the action dimensions. -/
noncomputable def compute_log_prob (A : Actor S action_dim) (state : S)
    (action : Fin action_dim → ℝ) : ℝ :=
  ∑ i, -(A.a_std_log i + sqrt_2pi_log
      + ((A.net state i - action i) / Real.exp (A.a_std_log i)) ^ 2 * 0.5)

end Actor

/-- The noise-based old-log-probability expression at the start of
RL_algo.learn: -(noises.pow(2) * 0.5 + a_std_log + sqrt_2pi_log).sum(1),
for one stored noise row. -/
noncomputable def old_log_prob (S : Type) (action_dim : ℕ)
    (A : Actor S action_dim) (noise : Fin action_dim → ℝ) : ℝ :=
  -(∑ i, (noise i ^ 2 * 0.5 + A.a_std_log i + sqrt_2pi_log))

/-- C1: for every state and noise vector, the noise-based old-log-probability
formula of learn equals compute_log_prob evaluated at the action
mean + noise * std produced by get_action_noise with the same parameters. -/
theorem old_log_prob_eq_compute_log_prob (S : Type) (action_dim : ℕ)
    (A : Actor S action_dim) (state : S) (noise : Fin action_dim → ℝ) :
    old_log_prob S action_dim A noise
      = A.compute_log_prob state (A.get_action_noise state noise).1 := by
  unfold old_log_prob Actor.compute_log_prob Actor.get_action_noise
  rw [← Finset.sum_neg_distrib]
  refine Finset.sum_congr rfl fun i _ => ?_
  have he : Real.exp (A.a_std_log i) ≠ 0 := Real.exp_ne_zero _
  have hcancel :
      A.net state i - (A.net state i + noise i * Real.exp (A.a_std_log i))
        = -noise i * Real.exp (A.a_std_log i) := by ring
  rw [hcancel, mul_div_assoc, div_self he]
  ring

/-- Spec-side closed form of section 4.2:
log_prob = -sum_d [ log_std_d + log(sqrt(2 pi)) + 0.5 ((mean_d - action_d)/std_d)^2 ]. -/
noncomputable def spec_log_prob {S : Type} {action_dim : ℕ}
    (A : Actor S action_dim) (state : S) (action : Fin action_dim → ℝ) : ℝ :=
  -(∑ i, (A.a_std_log i + sqrt_2pi_log
      + 0.5 * ((A.net state i - action i) / Real.exp (A.a_std_log i)) ^ 2))

/-- The Actor with one action dimension, zero backbone output (mean 0) and
a_std_log = 0 (std = 1). -/
noncomputable def actor_unit : Actor Unit 1 :=
  ⟨fun _ _ => 0, fun _ => 0⟩

/-- C4: compute_log_prob is exactly the closed-form diagonal-Gaussian
log-density of the spec, summed over the action dimensions to one scalar,
and at mean 0, std 1, action 0 it yields -log(sqrt(2 pi)) per dimension. -/
theorem compute_log_prob_closed_form :
    (∀ (S : Type) (action_dim : ℕ) (A : Actor S action_dim) (state : S)
        (action : Fin action_dim → ℝ),
      A.compute_log_prob state action = spec_log_prob A state action) ∧
    actor_unit.compute_log_prob () (fun _ => 0)
      = -Real.log (Real.sqrt (2 * Real.pi)) := by
  constructor
  · intro S action_dim A state action
    unfold Actor.compute_log_prob spec_log_prob
    rw [← Finset.sum_neg_distrib]
    exact Finset.sum_congr rfl fun i _ => by ring
  · unfold Actor.compute_log_prob actor_unit sqrt_2pi_log
    simp

/-! ## Trainer: buffer-fullness check -/

/-- Hyperparameter buffer_capacity = 2^12 + 50 from the source header,
as a Python integer. -/
def buffer_capacity : ℤ := 2 ^ 12 + 50

/-- Embedding of the condition of RL_algo.learn_if_buffer_is_full: the
learning pass runs exactly when buffer_capacity - len(self.buffer) <
max_episode_len. -/
def learn_if_buffer_is_full (buf_len max_episode_len : ℤ) : Bool :=
  decide (buffer_capacity - buf_len < max_episode_len)

/-- C8: the readiness check triggers the learning pass if and only if
capacity minus the buffer size is below max_episode_len. -/
theorem learn_if_buffer_is_full_iff {A : Type} (b : Buffer A)
    (max_episode_len : ℤ) :
    learn_if_buffer_is_full (b.size : ℤ) max_episode_len = true
      ↔ buffer_capacity - (b.size : ℤ) < max_episode_len := by
  simp [learn_if_buffer_is_full]

/-! ## learn: full-batch advantage standardization (C7) -/

/-- The advantages array computed once in RL_algo.learn, inside the
no-grad block, before the minibatch loop starts. -/
noncomputable def learn_advantages (n : ℕ) (r m v R0 A0 : ℕ → ℝ) : ℕ → ℝ :=
  (compute_reward n r m v R0 A0).2

/-- The adv tensor of one inner-loop iteration of learn:
adv = advantages[indices], a pure gather from the once-computed array. -/
noncomputable def learn_minibatch_adv (n : ℕ) (r m v R0 A0 : ℕ → ℝ)
    (indices : ℕ → ℕ) : ℕ → ℝ :=
  fun j => learn_advantages n r m v R0 A0 (indices j)

/-- Helper: the standardized batch has mean exactly zero. -/
theorem meanN_standardize (n : ℕ) (a : ℕ → ℝ) (hn : 1 ≤ n) :
    meanN n (standardize n a) = 0 := by
  have hn0 : (n : ℝ) ≠ 0 := Nat.cast_ne_zero.mpr (by omega)
  have hsum : ∑ j ∈ Finset.range n, (a j - meanN n a) = 0 := by
    rw [Finset.sum_sub_distrib, Finset.sum_const, Finset.card_range,
      nsmul_eq_mul, meanN, mul_div_cancel₀ _ hn0, sub_self]
  have h1 : meanN n (standardize n a)
      = (∑ j ∈ Finset.range n,
          (a j - meanN n a) / (stdN n a + std_eps)) / n := rfl
  rw [h1, ← Finset.sum_div, hsum, zero_div, zero_div]

/-- Helper: the standardized batch has standard deviation s / (s + eps),
where s is the standard deviation of the input batch. -/
theorem stdN_standardize (n : ℕ) (a : ℕ → ℝ) (hn : 1 ≤ n) :
    stdN n (standardize n a) = stdN n a / (stdN n a + std_eps) := by
  have hmean0 := meanN_standardize n a hn
  have h1 : stdN n (standardize n a)
      = Real.sqrt ((∑ j ∈ Finset.range n,
          (standardize n a j - meanN n (standardize n a)) ^ 2)
        / ((n - 1 : ℕ) : ℝ)) := rfl
  rw [h1, hmean0]
  have hT : (∑ j ∈ Finset.range n, (standardize n a j - 0) ^ 2)
      = (∑ j ∈ Finset.range n, (a j - meanN n a) ^ 2)
        * (1 / (stdN n a + std_eps)) ^ 2 := by
    rw [Finset.sum_mul]
    refine Finset.sum_congr rfl fun j _ => ?_
    unfold standardize
    ring
  have hnum : (0 : ℝ) ≤ (∑ j ∈ Finset.range n, (a j - meanN n a) ^ 2)
      / ((n - 1 : ℕ) : ℝ) :=
    div_nonneg (Finset.sum_nonneg fun j _ => sq_nonneg _) (Nat.cast_nonneg _)
  have hc : (0 : ℝ) ≤ 1 / (stdN n a + std_eps) := by
    have h0 : (0 : ℝ) ≤ stdN n a := Real.sqrt_nonneg _
    have heps : (0 : ℝ) < std_eps := by norm_num [std_eps]
    have hpos : (0 : ℝ) < stdN n a + std_eps := by linarith
    exact le_of_lt (one_div_pos.mpr hpos)
  rw [hT, mul_div_right_comm, Real.sqrt_mul hnum, Real.sqrt_sq hc, mul_one_div]
  rfl

/-- C7: in learn, advantage standardization happens once over the full
buffer batch before any minibatch is drawn: the adv entry of every
minibatch is the full-batch standardized value at its buffer slot, never a
per-minibatch restandardization; and for any input batch the standardized
advantages have mean exactly 0 and standard deviation s / (s + eps), which
for a non-degenerate batch (s > 0) is within eps / s of 1, hence within
eps of 1 whenever s is at least 1. -/
theorem advantages_standardized_full_batch (n : ℕ)
    (r m v R0 A0 a : ℕ → ℝ) (hn : 1 ≤ n) (hs : 0 < stdN n a) :
    (∀ (indices : ℕ → ℕ) (j : ℕ),
        learn_minibatch_adv n r m v R0 A0 indices j
          = standardize n ((gae_loop r m v n (R0, A0, 0, 0)).2.1) (indices j)) ∧
    meanN n (standardize n a) = 0 ∧
    stdN n (standardize n a) = stdN n a / (stdN n a + std_eps) ∧
    |stdN n (standardize n a) - 1| ≤ std_eps / stdN n a ∧
    (1 ≤ stdN n a → |stdN n (standardize n a) - 1| ≤ std_eps) := by
  have heps : (0 : ℝ) < std_eps := by norm_num [std_eps]
  have h0 : (0 : ℝ) ≤ stdN n a := Real.sqrt_nonneg _
  have hc : (0 : ℝ) < stdN n a + std_eps := by linarith
  have habs : |stdN n a / (stdN n a + std_eps) - 1|
      = std_eps / (stdN n a + std_eps) := by
    rw [div_sub_one hc.ne']
    have h2 : stdN n a - (stdN n a + std_eps) = -std_eps := by ring
    rw [h2, neg_div, abs_neg, abs_of_nonneg (le_of_lt (div_pos heps hc))]
  refine ⟨fun indices j => rfl, meanN_standardize n a hn,
    stdN_standardize n a hn, ?_, ?_⟩
  · rw [stdN_standardize n a hn, habs]
    gcongr
    linarith
  · intro h1
    rw [stdN_standardize n a hn, habs]
    calc std_eps / (stdN n a + std_eps) ≤ std_eps / 1 := by
          gcongr
          linarith
      _ = std_eps := div_one _

/-- Concrete advantage batch for the C7 witness: entries -1, 0, 1. -/
noncomputable def aw : ℕ → ℝ := fun j => (j : ℝ) - 1

/-- The witness batch has standard deviation exactly 1. -/
theorem aw_std : stdN 3 aw = 1 := by
  have hmean : meanN 3 aw = 0 := by
    unfold meanN aw
    rw [Finset.sum_range_succ, Finset.sum_range_succ, Finset.sum_range_one]
    norm_num
  unfold stdN
  rw [hmean]
  unfold aw
  rw [Finset.sum_range_succ, Finset.sum_range_succ, Finset.sum_range_one]
  norm_num [Real.sqrt_one]

/-- C7 witness: the batch of advantages -1, 0, 1 is non-degenerate with
standard deviation 1 and instantiates the full standardization statement. -/
theorem advantages_standardized_full_batch_witness :
    1 ≤ 3 ∧ 0 < stdN 3 aw ∧
      ((∀ (indices : ℕ → ℕ) (j : ℕ),
          learn_minibatch_adv 3 (fun _ => 0) (fun _ => 0) (fun _ => 0)
              (fun _ => 0) (fun _ => 0) indices j
            = standardize 3
                ((gae_loop (fun _ => 0) (fun _ => 0) (fun _ => 0) 3
                  ((fun _ => 0), (fun _ => 0), 0, 0)).2.1) (indices j)) ∧
       meanN 3 (standardize 3 aw) = 0 ∧
       stdN 3 (standardize 3 aw) = stdN 3 aw / (stdN 3 aw + std_eps) ∧
       |stdN 3 (standardize 3 aw) - 1| ≤ std_eps / stdN 3 aw ∧
       (1 ≤ stdN 3 aw → |stdN 3 (standardize 3 aw) - 1| ≤ std_eps)) :=
  ⟨by norm_num, by rw [aw_std]; norm_num,
    advantages_standardized_full_batch 3 _ _ _ _ _ aw (by norm_num)
      (by rw [aw_std]; norm_num)⟩
